import Mathlib

/-!
Verification of the selection-algorithm core of `SelectionAlgorithm.py`:
the Lomuto partitioner, the randomized quickselect selector, the group-median
helper and the median-of-medians selector.  Python lists of `int` are embedded
as `List Int`, list indices as `Int` with Python's negative-index wraparound,
runtime failures as `Except PyError`, and the pivot randomness of
`random.randint` as an explicit oracle stream, so that every theorem about the
randomized selector is quantified over all possible pivot choices.
-/

namespace SelectionAlgorithm

/-- Python runtime error kinds relevant to `SelectionAlgorithm.py`.
`valueError` is raised by `random.randint` on an empty range, `indexError` by
list indexing, `recursionError` models exhaustion of the interpreter's
recursion limit.  `emptyInput` and `rankOutOfRange` are the error kinds named
by §7 of the specification; they are modelled from the spec because the source
code itself never raises them. -/
inductive PyError where
  | valueError
  | indexError
  | recursionError
  | emptyInput
  | rankOutOfRange
  deriving DecidableEq, Repr

/-- Value of `a[i]` at a non-negative in-range index (total helper; callers
establish the bounds separately). -/
def aGet (a : List Int) (i : Int) : Int := a.getD i.toNat 0

/-- In-place update `a[i] = v` at a non-negative in-range index. -/
def aSet (a : List Int) (i : Int) (v : Int) : List Int := a.set i.toNat v

/-- Python list read `a[i]`: negative indices wrap around once, out-of-range
indices raise `IndexError`. -/
def pyGet (a : List Int) (i : Int) : Except PyError Int :=
  let j : Int := if i < 0 then i + a.length else i
  if 0 ≤ j ∧ j < a.length then .ok (aGet a j) else .error .indexError

/-- Python list write `a[i] = v`. -/
def pySet (a : List Int) (i : Int) (v : Int) : Except PyError (List Int) :=
  let j : Int := if i < 0 then i + a.length else i
  if 0 ≤ j ∧ j < a.length then .ok (aSet a j v) else .error .indexError

/-- Python tuple swap `a[i], a[j] = a[j], a[i]`: both reads happen first, then
the two writes, left to right. -/
def pySwap (a : List Int) (i j : Int) : Except PyError (List Int) := do
  let x ← pyGet a j
  let y ← pyGet a i
  let a₁ ← pySet a i x
  pySet a₁ j y

/-- `random.randint(lo, hi)`: any value of `[lo, hi]` may be produced; which
one is driven by the oracle value `c`.  A `ValueError` is raised on an empty
range, exactly as in CPython. -/
def randint (lo hi : Int) (c : Nat) : Except PyError Int :=
  if hi < lo then .error .valueError else .ok (lo + (c : Int) % (hi - lo + 1))

/-- Python slice `a[lo:hi]` (step 1): negative bounds wrap, all bounds are
clamped to the list. -/
def pySlice (a : List Int) (lo hi : Int) : List Int :=
  let n : Int := a.length
  let lo' : Int := if lo < 0 then max (lo + n) 0 else min lo n
  let hi' : Int := if hi < 0 then max (hi + n) 0 else min hi n
  (a.drop lo'.toNat).take (hi' - lo').toNat

/-- Ascending sort of a list of integers, modelling Python's `list.sort()` and
`sorted(...)`. -/
def sortedList (l : List Int) : List Int := l.insertionSort (· ≤ ·)

/-- The scan loop shared by `partition` and the textually identical
`partition_mom`: `for i in range(left, right): if arr_copy[i] < pivot_value:
swap into store_idx; store_idx += 1`, followed by the final swap of
`store_idx` with `right`.  The fuel `n` is the remaining iteration count
`right - i`, fixed up front exactly as Python's `range` does. -/
def partitionLoop (a : List Int) (pv i r store : Int) :
    Nat → Except PyError (List Int × Int)
  | 0 => do
    let a' ← pySwap a store r
    .ok (a', store)
  | n + 1 => do
    let x ← pyGet a i
    if x < pv then do
      let a' ← pySwap a i store
      partitionLoop a' pv (i + 1) r (store + 1) n
    else
      partitionLoop a pv (i + 1) r store n

/-- `partition(left, right, pivot_idx)`, the closure inside
`randomized_select`. -/
def partition (a : List Int) (l r p : Int) : Except PyError (List Int × Int) := do
  let pv ← pyGet a p
  let a₁ ← pySwap a p r
  partitionLoop a₁ pv l r l (r - l).toNat

/-- `partition_mom(left, right, pivot_idx)` of `deterministic_select`; its
body is textually identical to `partition`. -/
def partition_mom : List Int → Int → Int → Int → Except PyError (List Int × Int) :=
  partition

/-- The recursive helper `quickselect(left, right, k_smallest)` of
`randomized_select`.  `g` is the stream of pivot choices, one per recursive
call (indexed by `t`); the fuel models the recursion limit and is chosen
large enough by the top-level wrapper. -/
def quickselect (a : List Int) (l r k : Int) (g : Nat → Nat) (t : Nat) :
    Nat → Except PyError (List Int × Int)
  | 0 => .error .recursionError
  | fuel + 1 =>
    if l = r then do
      let v ← pyGet a l
      .ok (a, v)
    else do
      let c ← randint l r (g t)
      let (a₁, p) ← partition a l r c
      if k = p then do
        let v ← pyGet a₁ k
        .ok (a₁, v)
      else if k < p then
        quickselect a₁ l (p - 1) k g (t + 1) fuel
      else
        quickselect a₁ (p + 1) r k g (t + 1) fuel

/-- `SelectionAlgorithms.randomized_select(arr, k)`.  The working copy
`arr_copy = arr.copy()` is the list value handed to `quickselect`; the
caller's list is never written.  The result discards the final working copy
and keeps only the selected value.  The fuel `arr.length + 1` strictly
dominates the recursion depth, since the active range loses at least one
position per recursive call. -/
def randomized_select (arr : List Int) (k : Int) (g : Nat → Nat) :
    Except PyError Int :=
  (quickselect arr 0 ((arr.length : Int) - 1) k g 0 (arr.length + 1)).map (·.2)

/-- The write-back loop of `find_median`:
`for i in range(left, right + 1): arr_copy[i] = segment[i - left]`. -/
def writeLoop (a seg : List Int) (l i : Int) : Nat → Except PyError (List Int)
  | 0 => .ok a
  | n + 1 => do
    let v ← pyGet seg (i - l)
    let a' ← pySet a i v
    writeLoop a' seg l (i + 1) n

/-- `find_median(left, right)` of `deterministic_select`: sort the sub-range
`[left, right]` in place and return `left + (right - left) // 2`, the index of
its lower median. -/
def find_median (a : List Int) (l r : Int) : Except PyError (List Int × Int) := do
  let seg := sortedList (pySlice a l (r + 1))
  let a' ← writeLoop a seg l l (r + 1 - l).toNat
  .ok (a', l + Int.fdiv (r - l) 2)

/-- The grouping loop of `select`: `for i in range(left, right + 1, 5):
medians.append(find_median(i, min(i + 4, right)))`.  The fuel is the
iteration count of the stepped range. -/
def groupLoop (a : List Int) (i r : Int) :
    Nat → Except PyError (List Int × List Int)
  | 0 => .ok (a, [])
  | n + 1 => do
    let gr := min (i + 4) r
    let (a₁, m) ← find_median a i gr
    let (a₂, ms) ← groupLoop a₁ (i + 5) r n
    .ok (a₂, m :: ms)

/-- The scan `for i in range(left, right + 1): if arr_copy[i] == mom_value:
mom_idx = i; break` locating the first index whose value equals the median of
medians; the result stays `-1` when no index matches. -/
def scanLoop (a : List Int) (i v : Int) : Nat → Except PyError Int
  | 0 => .ok (-1)
  | n + 1 => do
    let x ← pyGet a i
    if x = v then .ok i else scanLoop a (i + 1) v n

/-- The median-of-medians pivot-index computation of `select` (the block from
`num_medians = len(medians)` to the scan that sets `mom_idx`): a single median
index is returned directly; otherwise the values at the collected indices are
gathered, their rank-`num_medians // 2` entry is found by the randomized
selector, and the first index of `[l, r]` holding that value is returned. -/
def computeMom (a : List Int) (l r : Int) (ms : List Int) (g : Nat → Nat) :
    Except PyError Int :=
  if ms.length = 1 then
    .ok (ms.headD 0)
  else do
    let vals ← ms.mapM (pyGet a)
    let mv ← randomized_select vals ((ms.length / 2 : Nat) : Int) g
    scanLoop a l mv (r + 1 - l).toNat

/-- The recursive helper `select(left, right, k_smallest)` of
`deterministic_select`.  `G t` is the fresh random stream handed to the inner
`randomized_select` call made at recursion level `t`. -/
def select (a : List Int) (l r k : Int) (G : Nat → Nat → Nat) (t : Nat) :
    Nat → Except PyError (List Int × Int)
  | 0 => .error .recursionError
  | fuel + 1 =>
    if l = r then do
      let v ← pyGet a l
      .ok (a, v)
    else do
      let (a₁, medians) ← groupLoop a l r (((r + 1 - l).toNat + 4) / 5)
      let mom ← computeMom a₁ l r medians (G t)
      let (a₂, p) ← partition_mom a₁ l r mom
      if k = p then do
        let v ← pyGet a₂ k
        .ok (a₂, v)
      else if k < p then
        select a₂ l (p - 1) k G (t + 1) fuel
      else
        select a₂ (p + 1) r k G (t + 1) fuel

/-- `SelectionAlgorithms.deterministic_select(arr, k)`. -/
def deterministic_select (arr : List Int) (k : Int) (G : Nat → Nat → Nat) :
    Except PyError Int :=
  (select arr 0 ((arr.length : Int) - 1) k G 0 (arr.length + 1)).map (·.2)

instance : DecidableEq (Except PyError Int) := fun a b =>
  match a, b with
  | .ok x, .ok y => decidable_of_iff (x = y) (by simp)
  | .ok _, .error _ => .isFalse (by simp)
  | .error _, .ok _ => .isFalse (by simp)
  | .error e, .error f => decidable_of_iff (e = f) (by simp)

theorem length_aSet (a : List Int) (i v : Int) : (aSet a i v).length = a.length :=
  List.length_set a i.toNat v

theorem aGet_aSet_self (a : List Int) {i : Int} (v : Int) (h0 : 0 ≤ i)
    (h : i < a.length) : aGet (aSet a i v) i = v := by
  simp [aGet, aSet, List.getElem?_set, show i.toNat < a.length by omega]

theorem aGet_aSet_ne (a : List Int) {i j : Int} (v : Int) (h0 : 0 ≤ i) (hj : 0 ≤ j)
    (hne : i ≠ j) : aGet (aSet a i v) j = aGet a j := by
  have hnn : i.toNat ≠ j.toNat := by omega
  simp [aGet, aSet, List.getD_eq_getElem?_getD, List.getElem?_set, hnn]

theorem pyGet_ok (a : List Int) {i : Int} (h0 : 0 ≤ i) (h : i < a.length) :
    pyGet a i = .ok (aGet a i) := by
  simp [pyGet, h0, h, show ¬ i < 0 by omega]

theorem pySet_ok (a : List Int) {i : Int} (v : Int) (h0 : 0 ≤ i) (h : i < a.length) :
    pySet a i v = .ok (aSet a i v) := by
  simp [pySet, h0, h, show ¬ i < 0 by omega]

/-- The pure value of a successful `pySwap`. -/
def aSwap (a : List Int) (i j : Int) : List Int :=
  aSet (aSet a i (aGet a j)) j (aGet a i)

theorem pySwap_ok (a : List Int) {i j : Int} (hi0 : 0 ≤ i) (hi : i < a.length)
    (hj0 : 0 ≤ j) (hj : j < a.length) : pySwap a i j = .ok (aSwap a i j) := by
  simp only [pySwap, bind, Except.bind, pyGet_ok a hj0 hj, pyGet_ok a hi0 hi,
    pySet_ok a (aGet a j) hi0 hi,
    pySet_ok (aSet a i (aGet a j)) (aGet a i) hj0 (by rw [length_aSet]; exact hj)]
  rfl

theorem length_aSwap (a : List Int) (i j : Int) : (aSwap a i j).length = a.length := by
  simp [aSwap, length_aSet]

theorem aGet_aSwap_left (a : List Int) {i j : Int} (hi0 : 0 ≤ i) (hi : i < a.length)
    (hj0 : 0 ≤ j) (hj : j < a.length) : aGet (aSwap a i j) i = aGet a j := by
  rcases eq_or_ne i j with rfl | hne
  · simp [aSwap]
    rw [aGet_aSet_self _ _ hi0 (by rw [length_aSet]; exact hi)]
  · simp only [aSwap]
    rw [aGet_aSet_ne _ _ hj0 hi0 (Ne.symm hne), aGet_aSet_self _ _ hi0 hi]

theorem aGet_aSwap_right (a : List Int) {i j : Int} (hi0 : 0 ≤ i) (hi : i < a.length)
    (hj0 : 0 ≤ j) (hj : j < a.length) : aGet (aSwap a i j) j = aGet a i := by
  simp only [aSwap]
  rw [aGet_aSet_self _ _ hj0 (by rw [length_aSet]; exact hj)]

theorem aGet_aSwap_ne (a : List Int) {i j x : Int} (hi0 : 0 ≤ i) (hj0 : 0 ≤ j)
    (hx0 : 0 ≤ x) (hxi : x ≠ i) (hxj : x ≠ j) : aGet (aSwap a i j) x = aGet a x := by
  simp only [aSwap]
  rw [aGet_aSet_ne _ _ hj0 hx0 (Ne.symm hxj), aGet_aSet_ne _ _ hi0 hx0 (Ne.symm hxi)]

theorem cons_set_perm : ∀ (t : List Int) (n : Nat) (v : Int), n < t.length →
    (t.getD n 0 :: t.set n v).Perm (v :: t)
  | c :: t', 0, v, _ => by
    simpa using List.Perm.swap v c t'
  | c :: t', n + 1, v, h => by
    have ih := cons_set_perm t' n v (by simpa using h)
    simp only [List.getD_cons_succ, List.set_cons_succ]
    exact (List.Perm.swap c _ _).trans ((ih.cons c).trans (List.Perm.swap v c t'))

theorem swapNat_perm : ∀ (a : List Int) (ni nj : Nat), ni < a.length → nj < a.length →
    ((a.set ni (a.getD nj 0)).set nj (a.getD ni 0)).Perm a
  | h :: t, 0, 0, _, _ => by simp
  | h :: t, 0, nj + 1, _, hj => by
    simpa using cons_set_perm t nj h (by simpa using hj)
  | h :: t, ni + 1, 0, hi, _ => by
    simpa using cons_set_perm t ni h (by simpa using hi)
  | h :: t, ni + 1, nj + 1, hi, hj => by
    have ih := swapNat_perm t ni nj (by simpa using hi) (by simpa using hj)
    simpa using ih.cons h

theorem aSwap_perm (a : List Int) {i j : Int} (hi0 : 0 ≤ i) (hi : i < a.length)
    (hj0 : 0 ≤ j) (hj : j < a.length) : (aSwap a i j).Perm a := by
  simpa [aSwap, aSet, aGet] using
    swapNat_perm a i.toNat j.toNat (by omega) (by omega)

theorem aGet_eq_getElem (a : List Int) {n : Nat} (h : n < a.length) :
    aGet a (n : Int) = a[n] := by
  rw [aGet, show ((n : Int)).toNat = n from by omega, List.getD_eq_getElem _ 0 h]

/-- The active window `a[l..r]` of the working sequence, as a list. -/
def window (a : List Int) (l r : Int) : List Int :=
  (a.drop l.toNat).take (r + 1 - l).toNat

theorem length_window (a : List Int) {l r : Int} (h0 : 0 ≤ l) (hlr : l ≤ r)
    (hr : r < a.length) : (window a l r).length = (r + 1 - l).toNat := by
  simp only [window, List.length_take, List.length_drop]
  omega

theorem window_decomp (a : List Int) {l r : Int} (h0 : 0 ≤ l) (hlr : l ≤ r)
    (hr : r < a.length) :
    a.take l.toNat ++ window a l r ++ a.drop (r.toNat + 1) = a := by
  have h1 : (a.drop l.toNat).drop (r + 1 - l).toNat = a.drop (r.toNat + 1) := by
    rw [List.drop_drop]
    congr 1
    omega
  rw [window, List.append_assoc, ← h1, List.take_append_drop, List.take_append_drop]

theorem aGet_window (a : List Int) {l r j : Int} (h0 : 0 ≤ l) (hlj : l ≤ j)
    (hjr : j ≤ r) (hr : r < a.length) :
    (window a l r).getD (j - l).toNat 0 = aGet a j := by
  have hlr : l ≤ r := le_trans hlj hjr
  have hjw : (j - l).toNat < (window a l r).length := by
    rw [length_window a h0 hlr hr]; omega
  rw [List.getD_eq_getElem _ 0 hjw, aGet,
    List.getD_eq_getElem _ 0 (show j.toNat < a.length by omega)]
  simp only [window, List.getElem_take, List.getElem_drop]
  congr 1
  omega

theorem take_eq_of_frame {a a' : List Int} {l r : Int} (h0 : 0 ≤ l)
    (hr : r < a.length) (hlen : a'.length = a.length)
    (hframe : ∀ x : Int, 0 ≤ x → x < a.length → (x < l ∨ r < x) →
      aGet a' x = aGet a x) :
    a'.take l.toNat = a.take l.toNat := by
  apply List.ext_getElem
  · simp [List.length_take, hlen]
  · intro n h1 h2
    have hn : n < l.toNat := by
      simp only [List.length_take] at h1; omega
    have hna : n < a.length := by
      simp only [List.length_take] at h2; omega
    rw [List.getElem_take, List.getElem_take]
    have hfr := hframe (n : Int) (by omega) (by exact_mod_cast hna)
      (Or.inl (by omega))
    rwa [aGet_eq_getElem a' (by omega), aGet_eq_getElem a hna] at hfr

theorem drop_eq_of_frame {a a' : List Int} {l r : Int} (h0 : 0 ≤ l) (hlr : l ≤ r)
    (hr : r < a.length) (hlen : a'.length = a.length)
    (hframe : ∀ x : Int, 0 ≤ x → x < a.length → (x < l ∨ r < x) →
      aGet a' x = aGet a x) :
    a'.drop (r.toNat + 1) = a.drop (r.toNat + 1) := by
  apply List.ext_getElem
  · simp [List.length_drop, hlen]
  · intro n h1 h2
    have hb : r.toNat + 1 + n < a.length := by
      simp only [List.length_drop] at h2; omega
    rw [List.getElem_drop, List.getElem_drop]
    have hfr := hframe ((r.toNat + 1 + n : Nat) : Int) (by omega)
      (by exact_mod_cast hb) (Or.inr (by omega))
    rwa [aGet_eq_getElem a' (by omega), aGet_eq_getElem a hb] at hfr

theorem window_perm_of_frame {a a' : List Int} {l r : Int} (h0 : 0 ≤ l) (hlr : l ≤ r)
    (hr : r < a.length) (hlen : a'.length = a.length) (hperm : a'.Perm a)
    (hframe : ∀ x : Int, 0 ≤ x → x < a.length → (x < l ∨ r < x) →
      aGet a' x = aGet a x) :
    (window a' l r).Perm (window a l r) := by
  have hr' : r < a'.length := by omega
  have d1 := window_decomp a h0 hlr hr
  have d2 := window_decomp a' h0 hlr hr'
  have hp : (a'.take l.toNat ++ window a' l r ++ a'.drop (r.toNat + 1)).Perm
      (a.take l.toNat ++ window a l r ++ a.drop (r.toNat + 1)) := by
    rw [d1, d2]; exact hperm
  rw [take_eq_of_frame h0 hr hlen hframe,
    drop_eq_of_frame h0 hlr hr hlen hframe] at hp
  rw [List.append_assoc, List.append_assoc] at hp
  have hp2 := (List.perm_append_left_iff _).1 hp
  exact (List.perm_append_right_iff _).1 hp2

theorem window_mem_transfer {a a' : List Int} {l r : Int} (h0 : 0 ≤ l) (hlr : l ≤ r)
    (hr : r < a.length) (hlen : a'.length = a.length) (hperm : a'.Perm a)
    (hframe : ∀ x : Int, 0 ≤ x → x < a.length → (x < l ∨ r < x) →
      aGet a' x = aGet a x) :
    ∀ j : Int, l ≤ j → j ≤ r → ∃ jj : Int, l ≤ jj ∧ jj ≤ r ∧ aGet a' j = aGet a jj := by
  intro j hlj hjr
  have hr' : r < a'.length := by omega
  have hwp := window_perm_of_frame h0 hlr hr hlen hperm hframe
  have hjw : (j - l).toNat < (window a' l r).length := by
    rw [length_window a' h0 hlr hr']; omega
  have hj' : aGet a' j = (window a' l r)[(j - l).toNat] := by
    rw [← aGet_window a' h0 hlj hjr hr', List.getD_eq_getElem _ 0 hjw]
  have hmem : aGet a' j ∈ window a l r := by
    rw [hj']
    exact hwp.mem_iff.1 (List.getElem_mem hjw)
  rcases List.mem_iff_getElem.1 hmem with ⟨m, hm, hv⟩
  have hmb : m < (r + 1 - l).toNat := by
    rwa [length_window a h0 hlr hr] at hm
  refine ⟨l + (m : Int), by omega, by omega, ?_⟩
  have hgw := aGet_window a (j := l + (m : Int)) h0 (by omega) (by omega) hr
  rw [← hgw, show (l + (m : Int) - l).toNat = m from by omega,
    List.getD_eq_getElem _ 0 hm, hv]

/-- Every position strictly left of `l` already holds a value bounded by every
value at or right of `l`: the prefix discarded by the recursion is finally
placed. -/
def lowerFixed (a : List Int) (l : Int) : Prop :=
  ∀ i j : Int, 0 ≤ i → i < l → l ≤ j → j < a.length → aGet a i ≤ aGet a j

/-- Every position strictly right of `r` already holds a value dominating every
value at or left of `r`. -/
def upperFixed (a : List Int) (r : Int) : Prop :=
  ∀ i j : Int, 0 ≤ i → i ≤ r → r < j → j < a.length → aGet a i ≤ aGet a j

theorem lowerFixed_preserved {a a' : List Int} {l r : Int} (h0 : 0 ≤ l) (hlr : l ≤ r)
    (hr : r < a.length) (hlen : a'.length = a.length) (hperm : a'.Perm a)
    (hframe : ∀ x : Int, 0 ≤ x → x < a.length → (x < l ∨ r < x) →
      aGet a' x = aGet a x)
    (h : lowerFixed a l) : lowerFixed a' l := by
  intro i j hi0 hil hlj hj
  have hj' : j < a.length := by omega
  have hi' : aGet a' i = aGet a i := hframe i hi0 (by omega) (Or.inl hil)
  rcases le_or_lt j r with hjr | hrj
  · obtain ⟨jj, hjj1, hjj2, hjj3⟩ :=
      window_mem_transfer h0 hlr hr hlen hperm hframe j hlj hjr
    rw [hi', hjj3]
    exact h i jj hi0 hil hjj1 (by omega)
  · rw [hi', hframe j (by omega) hj' (Or.inr hrj)]
    exact h i j hi0 hil hlj hj'

theorem upperFixed_preserved {a a' : List Int} {l r : Int} (h0 : 0 ≤ l) (hlr : l ≤ r)
    (hr : r < a.length) (hlen : a'.length = a.length) (hperm : a'.Perm a)
    (hframe : ∀ x : Int, 0 ≤ x → x < a.length → (x < l ∨ r < x) →
      aGet a' x = aGet a x)
    (h : upperFixed a r) : upperFixed a' r := by
  intro i j hi0 hir hrj hj
  have hj' : j < a.length := by omega
  have hjv : aGet a' j = aGet a j := hframe j (by omega) hj' (Or.inr hrj)
  rcases lt_or_le i l with hil | hli
  · rw [hjv, hframe i hi0 (by omega) (Or.inl hil)]
    exact h i j hi0 hir hrj hj'
  · obtain ⟨ii, hii1, hii2, hii3⟩ :=
      window_mem_transfer h0 hlr hr hlen hperm hframe i hli hir
    rw [hjv, hii3]
    exact h ii j (by omega) hii2 hrj hj'

theorem sortedList_sorted (l : List Int) : List.Sorted (· ≤ ·) (sortedList l) :=
  List.sorted_insertionSort _ l

theorem sortedList_perm (l : List Int) : (sortedList l).Perm l :=
  List.perm_insertionSort _ l

theorem length_sortedList (l : List Int) : (sortedList l).length = l.length :=
  List.length_insertionSort _ l

theorem sortedList_congr {a b : List Int} (h : a.Perm b) :
    sortedList a = sortedList b :=
  List.eq_of_perm_of_sorted ((sortedList_perm a).trans (h.trans (sortedList_perm b).symm))
    (sortedList_sorted a) (sortedList_sorted b)

theorem sorted_getElem_mono {s : List Int} (hs : List.Sorted (· ≤ ·) s) {i j : Nat}
    (hij : i ≤ j) (hi : i < s.length) (hj : j < s.length) : s[i] ≤ s[j] := by
  rcases Nat.eq_or_lt_of_le hij with rfl | h
  · exact le_refl _
  · exact List.pairwise_iff_getElem.1 hs i j hi hj h

/-- The rank-`k` entry of the ascending sort is `v` as soon as fewer than `k + 1`
elements are strictly below `v` and more than `k` elements are at most `v`. -/
theorem sorted_getElem_eq_of_counts {b : List Int} {k : Nat} (hk : k < b.length) {v : Int}
    (h1 : b.countP (fun x => decide (x < v)) ≤ k)
    (h2 : k < b.countP (fun x => decide (x ≤ v))) :
    (sortedList b).getD k 0 = v := by
  have hperm := sortedList_perm b
  have hsort := sortedList_sorted b
  have hlen : (sortedList b).length = b.length := length_sortedList b
  set s := sortedList b with hs
  have hk' : k < s.length := by rw [hlen]; exact hk
  have hc1 : s.countP (fun x => decide (x < v)) ≤ k := by
    rw [hperm.countP_eq]; exact h1
  have hc2 : k < s.countP (fun x => decide (x ≤ v)) := by
    rw [hperm.countP_eq]; exact h2
  rw [List.getD_eq_getElem _ 0 hk']
  rcases lt_trichotomy s[k] v with hlt | heq | hgt
  · exfalso
    have hall : ∀ x ∈ s.take (k + 1), (fun x => decide (x < v)) x = true := by
      intro x hx
      rcases List.mem_iff_getElem.1 hx with ⟨m, hm, rfl⟩
      have hlt2 := List.length_take (k + 1) s
      have hmk : m ≤ k := by omega
      have hms : m < s.length := by omega
      rw [List.getElem_take]
      exact decide_eq_true (lt_of_le_of_lt (sorted_getElem_mono hsort hmk hms hk') hlt)
    have hsplit := List.countP_append (fun x => decide (x < v)) (s.take (k + 1)) (s.drop (k + 1))
    rw [List.take_append_drop] at hsplit
    have htk : (s.take (k + 1)).countP (fun x => decide (x < v)) = (s.take (k + 1)).length :=
      List.countP_eq_length.2 hall
    rw [htk, List.length_take] at hsplit
    omega
  · exact heq
  · exfalso
    have hzero : (s.drop k).countP (fun x => decide (x ≤ v)) = 0 := by
      rw [List.countP_eq_zero]
      intro x hx
      rcases List.mem_iff_getElem.1 hx with ⟨m, hm, rfl⟩
      have hld := List.length_drop k s
      have hmlen : k + m < s.length := by omega
      rw [List.getElem_drop]
      simp only [decide_eq_true_eq]
      exact not_le.2 (lt_of_lt_of_le hgt (sorted_getElem_mono hsort (by omega) hk' hmlen))
    have hsplit := List.countP_append (fun x => decide (x ≤ v)) (s.take k) (s.drop k)
    rw [List.take_append_drop] at hsplit
    have hlt2 : (s.take k).countP (fun x => decide (x ≤ v)) ≤ k := by
      calc (s.take k).countP (fun x => decide (x ≤ v)) ≤ (s.take k).length :=
            List.countP_le_length _
        _ ≤ k := by rw [List.length_take]; omega
    omega

/-- A position whose value dominates everything to its left and is dominated by
everything to its right already holds its final sorted value. -/
theorem aGet_sortedList_eq {a : List Int} {k : Int} (h0 : 0 ≤ k) (hk : k < a.length)
    (hlo : ∀ i : Int, 0 ≤ i → i < k → aGet a i ≤ aGet a k)
    (hhi : ∀ j : Int, k < j → j < a.length → aGet a k ≤ aGet a j) :
    aGet (sortedList a) k = aGet a k := by
  set v := aGet a k with hv
  have hkn : k.toNat < a.length := by omega
  have hkel : aGet a k = a[k.toNat] := by
    rw [aGet, List.getD_eq_getElem _ 0 hkn]
  have hsplit1 := List.countP_append (fun x => decide (x < v)) (a.take k.toNat) (a.drop k.toNat)
  rw [List.take_append_drop] at hsplit1
  have hdrop1 : (a.drop k.toNat).countP (fun x => decide (x < v)) = 0 := by
    rw [List.countP_eq_zero]
    intro x hx
    rcases List.mem_iff_getElem.1 hx with ⟨m, hm, rfl⟩
    have hld := List.length_drop k.toNat a
    have hmlen : k.toNat + m < a.length := by omega
    rw [List.getElem_drop]
    simp only [decide_eq_true_eq, not_lt]
    rcases Nat.eq_zero_or_pos m with rfl | hm0
    · exact le_of_eq (by rw [hv, hkel]; simp)
    · have hj := hhi ((k.toNat + m : Nat) : Int) (by omega) (by omega)
      rwa [aGet_eq_getElem a hmlen] at hj
  have hc1 : a.countP (fun x => decide (x < v)) ≤ k.toNat := by
    rw [hsplit1, hdrop1]
    have := List.countP_le_length (fun x => decide (x < v)) (l := a.take k.toNat)
    have hlt := List.length_take k.toNat a
    omega
  have hsplit2 :=
    List.countP_append (fun x => decide (x ≤ v)) (a.take (k.toNat + 1)) (a.drop (k.toNat + 1))
  rw [List.take_append_drop] at hsplit2
  have hall : ∀ x ∈ a.take (k.toNat + 1), (fun x => decide (x ≤ v)) x = true := by
    intro x hx
    rcases List.mem_iff_getElem.1 hx with ⟨m, hm, rfl⟩
    have hlt2 := List.length_take (k.toNat + 1) a
    have hmk : m ≤ k.toNat := by omega
    have hms : m < a.length := by omega
    rw [List.getElem_take]
    rcases Nat.lt_or_ge m k.toNat with hmlt | hmge
    · have hl := hlo (m : Int) (by omega) (by omega)
      rw [aGet_eq_getElem a hms] at hl
      exact decide_eq_true hl
    · have hmeq : m = k.toNat := by omega
      subst hmeq
      exact decide_eq_true (le_of_eq (by rw [← hkel, hv]))
  have hc2 : k.toNat < a.countP (fun x => decide (x ≤ v)) := by
    have htk : (a.take (k.toNat + 1)).countP (fun x => decide (x ≤ v)) =
        (a.take (k.toNat + 1)).length := List.countP_eq_length.2 hall
    rw [hsplit2, htk, List.length_take]
    omega
  have hres := sorted_getElem_eq_of_counts hkn hc1 hc2
  rw [aGet]
  exact hres

/-- Invariant proof of the Lomuto scan: positions `[l, store)` hold values
strictly below the pivot, `[store, i)` values at least the pivot, the pivot
value is parked at `r`, and the loop finishes with the final swap placing the
pivot at the returned `store` index. -/
theorem partitionLoop_spec :
    ∀ (n : Nat) (a : List Int) (pv l i r store : Int),
      (r - i).toNat = n →
      0 ≤ l → l ≤ store → store ≤ i → i ≤ r → r < a.length →
      aGet a r = pv →
      (∀ x : Int, l ≤ x → x < store → aGet a x < pv) →
      (∀ x : Int, store ≤ x → x < i → pv ≤ aGet a x) →
      ∃ a' s,
        partitionLoop a pv i r store n = .ok (a', s) ∧
        l ≤ s ∧ s ≤ r ∧
        a'.length = a.length ∧ a'.Perm a ∧
        (∀ x : Int, 0 ≤ x → x < a.length → (x < l ∨ r < x) → aGet a' x = aGet a x) ∧
        (∀ x : Int, l ≤ x → x < s → aGet a' x < pv) ∧
        aGet a' s = pv ∧
        (∀ x : Int, s < x → x ≤ r → pv ≤ aGet a' x) := by
  intro n
  induction n with
  | zero =>
    intro a pv l i r store hn h0 hls hsi hir hr hpr hseg1 hseg2
    have hieq : i = r := by omega
    subst hieq
    have hsb0 : 0 ≤ store := by omega
    have hsb1 : store < a.length := by omega
    have hrb0 : 0 ≤ i := by omega
    refine ⟨aSwap a store i, store, ?_, hls, by omega, ?_, ?_, ?_, ?_, ?_, ?_⟩
    · simp only [partitionLoop, bind, Except.bind, pySwap_ok a hsb0 hsb1 hrb0 hr]
    · rw [aSwap, length_aSet, length_aSet]
    · exact aSwap_perm a hsb0 hsb1 hrb0 hr
    · intro x hx0 hx1 hx2
      exact aGet_aSwap_ne a hsb0 hrb0 hx0 (by omega) (by omega)
    · intro x hx1 hx2
      rw [aGet_aSwap_ne a hsb0 hrb0 (by omega) (by omega) (by omega)]
      exact hseg1 x hx1 hx2
    · rw [aGet_aSwap_left a hsb0 hsb1 hrb0 hr]
      exact hpr
    · intro x hx1 hx2
      rcases eq_or_ne x i with rfl | hne
      · rw [aGet_aSwap_right a hsb0 hsb1 hrb0 hr]
        exact hseg2 store (le_refl _) (by omega)
      · rw [aGet_aSwap_ne a hsb0 hrb0 (by omega) (by omega) hne]
        exact hseg2 x (by omega) (by omega)
  | succ n ih =>
    intro a pv l i r store hn h0 hls hsi hir hr hpr hseg1 hseg2
    have hilt : i < r := by omega
    have hi0 : 0 ≤ i := by omega
    have hia : i < a.length := by omega
    have hsb0 : 0 ≤ store := by omega
    have hsb1 : store < a.length := by omega
    rcases lt_or_le (aGet a i) pv with hxlt | hxge
    · have hsw := pySwap_ok a hi0 hia hsb0 hsb1
      have hlen_b : (aSwap a i store).length = a.length := by
        rw [aSwap, length_aSet, length_aSet]
      have hbr : aGet (aSwap a i store) r = pv := by
        rw [aGet_aSwap_ne a hi0 hsb0 (by omega) (by omega) (by omega)]
        exact hpr
      have hbseg1 : ∀ x : Int, l ≤ x → x < store + 1 → aGet (aSwap a i store) x < pv := by
        intro x hx1 hx2
        rcases eq_or_ne x store with rfl | hne
        · rw [aGet_aSwap_right a hi0 hia hsb0 hsb1]
          exact hxlt
        · rw [aGet_aSwap_ne a hi0 hsb0 (by omega) (by omega) hne]
          exact hseg1 x hx1 (by omega)
      have hbseg2 : ∀ x : Int, store + 1 ≤ x → x < i + 1 → pv ≤ aGet (aSwap a i store) x := by
        intro x hx1 hx2
        rcases eq_or_ne x i with rfl | hne
        · rw [aGet_aSwap_left a hi0 hia hsb0 hsb1]
          exact hseg2 store (le_refl _) (by omega)
        · rw [aGet_aSwap_ne a hi0 hsb0 (by omega) hne (by omega)]
          exact hseg2 x (by omega) (by omega)
      obtain ⟨a', s, heq, hs1, hs2, hlen', hperm', hframe', hseg1', hsv', hseg2'⟩ :=
        ih (aSwap a i store) pv l (i + 1) r (store + 1) (by omega) h0 (by omega)
          (by omega) (by omega) (by rw [hlen_b]; exact hr) hbr hbseg1 hbseg2
      refine ⟨a', s, ?_, by omega, hs2, ?_, ?_, ?_, hseg1', hsv', hseg2'⟩
      · simp only [partitionLoop, bind, Except.bind, pyGet_ok a hi0 hia, hsw]
        rw [if_pos hxlt]
        exact heq
      · rw [hlen', hlen_b]
      · exact hperm'.trans (aSwap_perm a hi0 hia hsb0 hsb1)
      · intro x hx0 hx1 hx2
        rw [hframe' x hx0 (by rw [hlen_b]; exact_mod_cast hx1) hx2,
          aGet_aSwap_ne a hi0 hsb0 hx0 (by omega) (by omega)]
    · have hbseg2 : ∀ x : Int, store ≤ x → x < i + 1 → pv ≤ aGet a x := by
        intro x hx1 hx2
        rcases eq_or_ne x i with rfl | hne
        · exact hxge
        · exact hseg2 x hx1 (by omega)
      obtain ⟨a', s, heq, hs1, hs2, hlen', hperm', hframe', hseg1', hsv', hseg2'⟩ :=
        ih a pv l (i + 1) r store (by omega) h0 hls (by omega) (by omega) hr hpr
          hseg1 hbseg2
      refine ⟨a', s, ?_, hs1, hs2, hlen', hperm', hframe', hseg1', hsv', hseg2'⟩
      simp only [partitionLoop, bind, Except.bind, pyGet_ok a hi0 hia]
      rw [if_neg (not_lt.2 hxge)]
      exact heq

/-- Full functional specification of `partition` (and hence of the identical
`partition_mom`): for a valid range and in-range pivot index it succeeds, the
result index is inside the range, the working sequence is permuted with all
changes confined to `[l, r]`, values left of the result are strictly below the
original pivot value, the pivot value sits at the result index, and values
right of it (up to `r`) are at least the pivot value. -/
theorem partition_spec (a : List Int) (l r p : Int)
    (h0 : 0 ≤ l) (hlp : l ≤ p) (hpr : p ≤ r) (hr : r < a.length) :
    ∃ a' s,
      partition a l r p = .ok (a', s) ∧
      l ≤ s ∧ s ≤ r ∧
      a'.length = a.length ∧ a'.Perm a ∧
      (∀ x : Int, 0 ≤ x → x < a.length → (x < l ∨ r < x) → aGet a' x = aGet a x) ∧
      (∀ x : Int, l ≤ x → x < s → aGet a' x < aGet a p) ∧
      aGet a' s = aGet a p ∧
      (∀ x : Int, s < x → x ≤ r → aGet a p ≤ aGet a' x) := by
  have hp0 : 0 ≤ p := by omega
  have hpl : p < a.length := by omega
  have hr0 : 0 ≤ r := by omega
  have hlen1 : (aSwap a p r).length = a.length := by
    rw [aSwap, length_aSet, length_aSet]
  have hpark : aGet (aSwap a p r) r = aGet a p := aGet_aSwap_right a hp0 hpl hr0 hr
  obtain ⟨a', s, heq, hs1, hs2, hlen', hperm', hframe', hseg1', hsv', hseg2'⟩ :=
    partitionLoop_spec (r - l).toNat (aSwap a p r) (aGet a p) l l r l rfl h0
      (le_refl _) (le_refl _) (by omega) (by rw [hlen1]; exact hr) hpark
      (by intro x hx1 hx2; omega) (by intro x hx1 hx2; omega)
  refine ⟨a', s, ?_, hs1, hs2, ?_, ?_, ?_, hseg1', hsv', hseg2'⟩
  · simp only [partition, bind, Except.bind, pyGet_ok a hp0 hpl,
      pySwap_ok a hp0 hpl hr0 hr]
    exact heq
  · rw [hlen', hlen1]
  · exact hperm'.trans (aSwap_perm a hp0 hpl hr0 hr)
  · intro x hx0 hx1 hx2
    rw [hframe' x hx0 (by rw [hlen1]; exact_mod_cast hx1) hx2,
      aGet_aSwap_ne a hp0 hr0 hx0 (by omega) (by omega)]

theorem randint_ok {l r : Int} (c : Nat) (h : l ≤ r) :
    randint l r c = .ok (l + (c : Int) % (r - l + 1)) ∧
    l ≤ l + (c : Int) % (r - l + 1) ∧ l + (c : Int) % (r - l + 1) ≤ r := by
  have h1 := Int.emod_nonneg (c : Int) (show (r - l + 1) ≠ 0 by omega)
  have h2 := Int.emod_lt_of_pos (c : Int) (show (0 : Int) < r - l + 1 by omega)
  exact ⟨by rw [randint, if_neg (by omega)], by omega, by omega⟩

/-- Main invariant proof of `quickselect`: with a valid target rank inside the
active window, enough fuel, and the window-exterior already finally placed,
the call succeeds and returns the rank-`k` entry of the ascending sort of the
current working sequence, leaving a permutation of it behind. -/
theorem quickselect_spec :
    ∀ (fuel : Nat) (a : List Int) (l r k : Int) (g : Nat → Nat) (t : Nat),
      0 ≤ l → l ≤ k → k ≤ r → r < a.length → (r - l).toNat < fuel →
      lowerFixed a l → upperFixed a r →
      ∃ a', quickselect a l r k g t fuel = .ok (a', aGet (sortedList a) k) ∧
        a'.length = a.length ∧ a'.Perm a := by
  intro fuel
  induction fuel with
  | zero =>
    intro a l r k g t h0 hlk hkr hr hfuel hlo hhi
    omega
  | succ fuel ih =>
    intro a l r k g t h0 hlk hkr hr hfuel hlo hhi
    have hk0 : 0 ≤ k := by omega
    have hkl : k < a.length := by omega
    rcases eq_or_ne l r with rfl | hlr
    · have hkeq : k = l := by omega
      subst hkeq
      have hval : aGet (sortedList a) k = aGet a k := by
        apply aGet_sortedList_eq hk0 hkl
        · intro i h1 h2
          exact hlo i k h1 h2 (le_refl _) hkl
        · intro j h1 h2
          exact hhi k j hk0 (le_refl _) h1 h2
      refine ⟨a, ?_, rfl, List.Perm.refl a⟩
      rw [hval]
      simp only [quickselect, if_pos rfl, pyGet_ok a hk0 hkl, bind, Except.bind, if_true]
    · have hlr' : l < r := by omega
      obtain ⟨hrand, hcl, hcr⟩ := randint_ok (g t) (le_of_lt hlr')
      obtain ⟨a₁, p, heqp, hp1, hp2, hlen₁, hperm₁, hframe₁, hseglt, hsv, hsegge⟩ :=
        partition_spec a l r (l + ((g t : Nat) : Int) % (r - l + 1)) h0 hcl hcr hr
      have hra₁ : r < a₁.length := by rw [hlen₁]; exact hr
      have hka₁ : k < a₁.length := by rw [hlen₁]; exact hkl
      have hlo₁ : lowerFixed a₁ l :=
        lowerFixed_preserved h0 (le_of_lt hlr') hr hlen₁ hperm₁ hframe₁ hlo
      have hhi₁ : upperFixed a₁ r :=
        upperFixed_preserved h0 (le_of_lt hlr') hr hlen₁ hperm₁ hframe₁ hhi
      have hsorteq : sortedList a₁ = sortedList a := sortedList_congr hperm₁
      have hpl₁ : p < a₁.length := by omega
      rcases lt_trichotomy k p with hklt | hkeq | hkgt
      · -- recurse into the left part [l, p - 1]
        have hupper : upperFixed a₁ (p - 1) := by
          intro i j hi0 hip hpj hj
          rcases lt_or_le i l with hil | hli
          · exact hlo₁ i j hi0 hil (by omega) hj
          · have hiv : aGet a₁ i < aGet a (l + ((g t : Nat) : Int) % (r - l + 1)) :=
              hseglt i hli (by omega)
            rcases eq_or_ne j p with rfl | hjp
            · omega
            · rcases le_or_lt j r with hjr | hrj
              · have := hsegge j (by omega) hjr
                omega
              · exact hhi₁ i j hi0 (by omega) hrj hj
        obtain ⟨a₂, heq₂, hlen₂, hperm₂⟩ :=
          ih a₁ l (p - 1) k g (t + 1) h0 hlk (by omega) (by omega) (by omega) hlo₁ hupper
        refine ⟨a₂, ?_, by omega, hperm₂.trans hperm₁⟩
        rw [← hsorteq]
        simp only [quickselect, if_neg hlr, bind, Except.bind, hrand, heqp,
          if_neg (show ¬ k = p by omega), if_pos hklt]
        exact heq₂
      · -- the pivot landed exactly on the target rank
        subst hkeq
        have hval : aGet (sortedList a₁) k = aGet a₁ k := by
          apply aGet_sortedList_eq hk0 hka₁
          · intro i h1 h2
            rcases lt_or_le i l with hil | hli
            · exact hlo₁ i k h1 hil (by omega) hka₁
            · have := hseglt i hli h2
              omega
          · intro j h1 h2
            rcases le_or_lt j r with hjr | hrj
            · have := hsegge j h1 hjr
              omega
            · exact hhi₁ k j hk0 hp2 hrj h2
        refine ⟨a₁, ?_, hlen₁, hperm₁⟩
        rw [← hsorteq, hval]
        simp only [quickselect, if_neg hlr, bind, Except.bind, hrand, heqp, if_pos rfl,
          pyGet_ok a₁ hk0 hka₁, if_true]
      · -- recurse into the right part [p + 1, r]
        have hlower : lowerFixed a₁ (p + 1) := by
          intro i j hi0 hip hpj hj
          rcases lt_or_le i l with hil | hli
          · exact hlo₁ i j hi0 hil (by omega) hj
          · rcases le_or_lt j r with hjr | hrj
            · have hjv := hsegge j (by omega) hjr
              rcases eq_or_ne i p with rfl | hij
              · omega
              · have := hseglt i hli (by omega)
                omega
            · exact hhi₁ i j hi0 (by omega) hrj hj
        obtain ⟨a₂, heq₂, hlen₂, hperm₂⟩ :=
          ih a₁ (p + 1) r k g (t + 1) (by omega) (by omega) hkr hra₁ (by omega)
            hlower hhi₁
        refine ⟨a₂, ?_, by omega, hperm₂.trans hperm₁⟩
        rw [← hsorteq]
        simp only [quickselect, if_neg hlr, bind, Except.bind, hrand, heqp,
          if_neg (show ¬ k = p by omega), if_neg (show ¬ k < p by omega)]
        exact heq₂

/-- `randomized_select` returns the rank-`k` entry of the ascending sort, for
every pivot-choice oracle. -/
theorem randomized_select_correct (arr : List Int) (k : Int) (g : Nat → Nat)
    (h0 : 0 ≤ k) (hk : k < arr.length) :
    randomized_select arr k g = .ok (aGet (sortedList arr) k) := by
  obtain ⟨a', heq, _, _⟩ :=
    quickselect_spec (arr.length + 1) arr 0 ((arr.length : Int) - 1) k g 0
      (le_refl _) h0 (by omega) (by omega) (by omega)
      (by intro i j h1 h2 h3 h4; omega)
      (by intro i j h1 h2 h3 h4; omega)
  rw [randomized_select, heq]
  rfl

theorem take_succ_set (a : List Int) (m : Nat) (v : Int) (h : m < a.length) :
    (a.set m v).take (m + 1) = a.take m ++ [v] := by
  apply List.ext_getElem
  · simp [List.length_take, List.length_set]
    omega
  · intro n h1 h2
    have hn : n < m + 1 := by
      simp only [List.length_take, List.length_set] at h1; omega
    rw [List.getElem_take, List.getElem_set]
    rcases Nat.lt_or_ge n m with hlt | hge
    · rw [if_neg (by omega), List.getElem_append n
        (by simp only [List.length_append, List.length_take, List.length_cons]; omega)]
      rw [dif_pos (by simp only [List.length_take]; omega), List.getElem_take]
    · have hnm : n = m := by omega
      subst hnm
      rw [if_pos rfl, List.getElem_append n
        (by simp only [List.length_append, List.length_take, List.length_cons]; omega)]
      rw [dif_neg (by simp only [List.length_take]; omega)]
      simp [List.length_take, show min n a.length = n by omega]

theorem drop_set_of_lt (a : List Int) (m j : Nat) (v : Int) (h : m < j) :
    (a.set m v).drop j = a.drop j := by
  apply List.ext_getElem
  · simp [List.length_drop, List.length_set]
  · intro n h1 h2
    rw [List.getElem_drop, List.getElem_drop, List.getElem_set, if_neg (by omega)]

/-- The write-back loop overwrites exactly the positions `[i, i + n)` with the
tail of `seg` and leaves everything else in place. -/
theorem writeLoop_spec :
    ∀ (n : Nat) (a seg : List Int) (l i : Int),
      0 ≤ l → l ≤ i → i - l + n = seg.length → i + n ≤ a.length →
      writeLoop a seg l i n =
        .ok (a.take i.toNat ++ seg.drop (i - l).toNat ++ a.drop (i.toNat + n)) := by
  intro n
  induction n with
  | zero =>
    intro a seg l i h0 hli hlen hstop
    have hdr : seg.drop (i - l).toNat = [] :=
      List.drop_eq_nil_of_le (by omega)
    rw [writeLoop, hdr]
    simp
  | succ n ih =>
    intro a seg l i h0 hli hlen hstop
    have hq : (i - l).toNat < seg.length := by omega
    have hi0 : 0 ≤ i := by omega
    have hia : i < a.length := by omega
    have hsval : aGet seg (i - l) = seg[(i - l).toNat] := by
      rw [aGet, List.getD_eq_getElem _ 0 hq]
    have hrec := ih (aSet a i (aGet seg (i - l))) seg l (i + 1) h0 (by omega)
      (by omega) (by rw [aSet, List.length_set]; omega)
    simp only [writeLoop, bind, Except.bind,
      pyGet_ok seg (show (0 : Int) ≤ i - l by omega)
        (show i - l < (seg.length : Int) by omega),
      pySet_ok a (aGet seg (i - l)) hi0 hia, hrec]
    congr 1
    have h1 : (aSet a i (aGet seg (i - l))).take (i + 1).toNat =
        a.take i.toNat ++ [aGet seg (i - l)] := by
      rw [aSet, show (i + 1).toNat = i.toNat + 1 by omega]
      exact take_succ_set a i.toNat _ (by omega)
    have h2 : (aSet a i (aGet seg (i - l))).drop ((i + 1).toNat + n) =
        a.drop (i.toNat + (n + 1)) := by
      rw [aSet, show (i + 1).toNat + n = i.toNat + (n + 1) by omega]
      exact drop_set_of_lt a i.toNat _ _ (by omega)
    have h3 : seg.drop (i - l).toNat =
        aGet seg (i - l) :: seg.drop ((i + 1 - l).toNat) := by
      rw [hsval, show (i + 1 - l).toNat = (i - l).toNat + 1 by omega]
      exact List.drop_eq_getElem_cons hq
    rw [h1, h2, h3]
    simp

theorem pySlice_eq_window (a : List Int) {l r : Int} (h0 : 0 ≤ l) (hlr : l ≤ r)
    (hr : r < a.length) : pySlice a l (r + 1) = window a l r := by
  rw [pySlice, window]
  rw [if_neg (by omega), if_neg (by omega), min_eq_left (by omega),
    min_eq_left (by omega)]

/-- Structure of a working sequence whose window `[l, r]` has been replaced by
a list `w` of the same length: length, frame, the new window, and (when `w`
permutes the old window) permutation of the whole sequence. -/
theorem replaceWindow_facts (a w : List Int) {l r : Int} (h0 : 0 ≤ l) (hlr : l ≤ r)
    (hr : r < a.length) (hw : w.length = (r + 1 - l).toNat) :
    (a.take l.toNat ++ w ++ a.drop (r.toNat + 1)).length = a.length ∧
    (∀ x : Int, 0 ≤ x → x < a.length → (x < l ∨ r < x) →
      aGet (a.take l.toNat ++ w ++ a.drop (r.toNat + 1)) x = aGet a x) ∧
    window (a.take l.toNat ++ w ++ a.drop (r.toNat + 1)) l r = w ∧
    (w.Perm (window a l r) →
      (a.take l.toNat ++ w ++ a.drop (r.toNat + 1)).Perm a) := by
  have htl : (a.take l.toNat).length = l.toNat := by
    rw [List.length_take]; omega
  have hdl : (a.drop (r.toNat + 1)).length = a.length - (r.toNat + 1) := by
    rw [List.length_drop]
  have hblen : (a.take l.toNat ++ w ++ a.drop (r.toNat + 1)).length = a.length := by
    simp only [List.length_append, htl, hdl, hw]
    omega
  refine ⟨hblen, ?_, ?_, ?_⟩
  · intro x hx0 hx1 hx2
    have hxn : x.toNat < a.length := by omega
    have hxb : x.toNat < (a.take l.toNat ++ w ++ a.drop (r.toNat + 1)).length := by
      omega
    rw [aGet, aGet, List.getD_eq_getElem _ 0 hxb, List.getD_eq_getElem _ 0 hxn]
    rcases hx2 with hxl | hxr
    · rw [List.getElem_append x.toNat hxb]
      rw [dif_pos (by simp only [List.length_append, htl, hw]; omega)]
      rw [List.getElem_append x.toNat
        (by simp only [List.length_append, htl, hw]; omega)]
      rw [dif_pos (by omega), List.getElem_take]
    · rw [List.getElem_append_right (by simp only [List.length_append, htl, hw]; omega)]
      rw [List.getElem_drop]
      congr 1
      simp only [List.length_append, htl, hw]
      omega
  · have hsplit : a.take l.toNat ++ w ++ a.drop (r.toNat + 1) =
        a.take l.toNat ++ (w ++ a.drop (r.toNat + 1)) := by
      rw [List.append_assoc]
    rw [window, hsplit, List.drop_left' htl, List.take_left' (by omega)]
  · intro hwp
    have hd := window_decomp a h0 hlr hr
    have h1 : (a.take l.toNat ++ w ++ a.drop (r.toNat + 1)).Perm
        (a.take l.toNat ++ window a l r ++ a.drop (r.toNat + 1)) := by
      rw [List.append_assoc, List.append_assoc]
      exact List.Perm.append_left _ (hwp.append_right _)
    rwa [hd] at h1

/-- `find_median` sorts the window in place and returns the lower-median
index. -/
theorem find_median_eq (a : List Int) {l r : Int} (h0 : 0 ≤ l) (hlr : l ≤ r)
    (hr : r < a.length) :
    find_median a l r =
      .ok (a.take l.toNat ++ sortedList (window a l r) ++ a.drop (r.toNat + 1),
        l + Int.fdiv (r - l) 2) := by
  have hseglen : (sortedList (window a l r)).length = (r + 1 - l).toNat := by
    rw [length_sortedList, length_window a h0 hlr hr]
  have hwl := writeLoop_spec (r + 1 - l).toNat a (sortedList (window a l r)) l l
    h0 (le_refl _) (by omega) (by omega)
  rw [find_median, pySlice_eq_window a h0 hlr hr]
  simp only [bind, Except.bind]
  rw [hwl]
  rw [show (l - l).toNat = 0 from by omega, List.drop_zero,
    show l.toNat + (r + 1 - l).toNat = r.toNat + 1 from by omega]

theorem fdiv2_bounds {d : Int} (h1 : 0 ≤ d) (h2 : d ≤ 4) :
    0 ≤ d.fdiv 2 ∧ d.fdiv 2 ≤ d := by
  interval_cases d <;> exact ⟨by decide, by decide⟩

/-- Packaged facts about one `find_median` call on a group of at most five
elements: success, length preservation, permutation, frame outside `[l, r]`,
and the returned lower-median index lying inside `[l, r]`. -/
theorem find_median_post (a : List Int) {l r : Int} (h0 : 0 ≤ l) (hlr : l ≤ r)
    (hr : r < a.length) (hgrp : r - l ≤ 4) :
    ∃ a' m, find_median a l r = .ok (a', m) ∧
      a'.length = a.length ∧ a'.Perm a ∧
      (∀ x : Int, 0 ≤ x → x < a.length → (x < l ∨ r < x) → aGet a' x = aGet a x) ∧
      l ≤ m ∧ m ≤ r := by
  have hslen : (sortedList (window a l r)).length = (r + 1 - l).toNat := by
    rw [length_sortedList, length_window a h0 hlr hr]
  obtain ⟨hblen, hbframe, _, hbperm⟩ :=
    replaceWindow_facts a (sortedList (window a l r)) h0 hlr hr hslen
  obtain ⟨hf1, hf2⟩ := fdiv2_bounds (d := r - l) (by omega) hgrp
  exact ⟨_, _, find_median_eq a h0 hlr hr, hblen,
    hbperm (sortedList_perm _), hbframe, by omega, by omega⟩

/-- The grouping pass succeeds, permutes the working sequence inside `[i, r]`
only, and produces a non-empty list of median indices all lying in `[i, r]`. -/
theorem groupLoop_spec :
    ∀ (n : Nat) (a : List Int) (i r : Int),
      0 ≤ i → i ≤ r → r < a.length → n = ((r + 1 - i).toNat + 4) / 5 →
      ∃ a' ms,
        groupLoop a i r n = .ok (a', ms) ∧
        a'.length = a.length ∧ a'.Perm a ∧
        (∀ x : Int, 0 ≤ x → x < a.length → (x < i ∨ r < x) → aGet a' x = aGet a x) ∧
        ms ≠ [] ∧ (∀ m ∈ ms, i ≤ m ∧ m ≤ r) := by
  intro n
  induction n with
  | zero =>
    intro a i r h0 hir hr hn
    omega
  | succ n ih =>
    intro a i r h0 hir hr hn
    obtain ⟨a₁, m, heqf, hlen₁, hperm₁, hframe₁, hm1, hm2⟩ :=
      find_median_post a (l := i) (r := min (i + 4) r) h0 (by omega) (by omega)
        (by omega)
    rcases lt_or_le r (i + 5) with hend | hcont
    · have hn0 : n = 0 := by omega
      subst hn0
      refine ⟨a₁, [m], ?_, hlen₁, hperm₁, ?_, by simp, ?_⟩
      · simp only [groupLoop, bind, Except.bind, heqf]
      · intro x hx0 hx1 hx2
        exact hframe₁ x hx0 hx1 (by omega)
      · intro y hy
        rw [List.mem_singleton] at hy
        subst hy
        exact ⟨hm1, by omega⟩
    · obtain ⟨a₂, ms, heqg, hlen₂, hperm₂, hframe₂, hne₂, hmb₂⟩ :=
        ih a₁ (i + 5) r (by omega) (by omega) (by rw [hlen₁]; exact hr) (by omega)
      refine ⟨a₂, m :: ms, ?_, by omega, hperm₂.trans hperm₁, ?_, by simp, ?_⟩
      · simp only [groupLoop, bind, Except.bind, heqf, heqg]
      · intro x hx0 hx1 hx2
        rw [hframe₂ x hx0 (by omega) (by omega), hframe₁ x hx0 hx1 (by omega)]
      · intro y hy
        rcases List.mem_cons.1 hy with rfl | hmem
        · exact ⟨hm1, by omega⟩
        · obtain ⟨h1, h2⟩ := hmb₂ y hmem
          exact ⟨by omega, h2⟩

/-- The equality scan returns the first index of `[i, i + n)` holding `v`,
provided one exists. -/
theorem scanLoop_spec :
    ∀ (n : Nat) (a : List Int) (i v : Int),
      0 ≤ i → i + n ≤ a.length →
      (∃ j : Int, i ≤ j ∧ j < i + n ∧ aGet a j = v) →
      ∃ j : Int, scanLoop a i v n = .ok j ∧ i ≤ j ∧ j < i + n ∧ aGet a j = v ∧
        ∀ x : Int, i ≤ x → x < j → aGet a x ≠ v := by
  intro n
  induction n with
  | zero =>
    intro a i v h0 hlen hex
    obtain ⟨j, h1, h2, h3⟩ := hex
    omega
  | succ n ih =>
    intro a i v h0 hlen hex
    have hia : i < a.length := by omega
    rcases eq_or_ne (aGet a i) v with heq | hne
    · refine ⟨i, ?_, le_refl _, by omega, heq, by intro x h1 h2; omega⟩
      simp only [scanLoop, bind, Except.bind, pyGet_ok a h0 hia, if_pos heq]
    · obtain ⟨j, h1, h2, h3⟩ := hex
      have hex' : ∃ j : Int, i + 1 ≤ j ∧ j < i + 1 + n ∧ aGet a j = v := by
        refine ⟨j, ?_, by omega, h3⟩
        rcases eq_or_ne j i with rfl | hji
        · exact absurd h3 hne
        · omega
      obtain ⟨j', hjeq, hj1, hj2, hj3, hj4⟩ := ih a (i + 1) v (by omega) (by omega) hex'
      refine ⟨j', ?_, by omega, by omega, hj3, ?_⟩
      · simp only [scanLoop, bind, Except.bind, pyGet_ok a h0 hia, if_neg hne, hjeq]
      · intro x hx1 hx2
        rcases eq_or_ne x i with rfl | hxi
        · exact hne
        · exact hj4 x (by omega) hx2

theorem mapM_pyGet_ok (a : List Int) :
    ∀ ms : List Int, (∀ m ∈ ms, 0 ≤ m ∧ m < a.length) →
      ms.mapM (pyGet a) = .ok (ms.map (aGet a)) := by
  intro ms
  induction ms with
  | nil => intro _; rfl
  | cons m ms ih =>
    intro h
    obtain ⟨h1, h2⟩ := h m (List.mem_cons_self m ms)
    rw [List.mapM_cons, pyGet_ok a h1 h2,
      ih (fun x hx => h x (List.mem_cons_of_mem m hx))]
    rfl

/-- Detailed behaviour of `computeMom` when two or more group medians were
collected: the returned pivot index lies in `[l, r]`, its value is the
rank-`|ms| / 2` entry of the ascending sort of the median values, and it is
the first index of `[l, r]` holding that value. -/
theorem computeMom_mom_spec (a ms : List Int) {l r : Int} (g : Nat → Nat)
    (h0 : 0 ≤ l) (hlr : l ≤ r) (hr : r < a.length)
    (hms : ∀ m ∈ ms, l ≤ m ∧ m ≤ r) (hlen2 : 2 ≤ ms.length) :
    ∃ j : Int,
      computeMom a l r ms g = .ok j ∧ l ≤ j ∧ j ≤ r ∧
      aGet a j = aGet (sortedList (ms.map (aGet a))) ((ms.length / 2 : Nat) : Int) ∧
      (∀ x : Int, l ≤ x → x < j →
        aGet a x ≠ aGet (sortedList (ms.map (aGet a))) ((ms.length / 2 : Nat) : Int)) := by
  have hmb : ∀ m ∈ ms, 0 ≤ m ∧ m < (a.length : Int) := by
    intro m hm
    obtain ⟨h1, h2⟩ := hms m hm
    exact ⟨by omega, by omega⟩
  have hmapm := mapM_pyGet_ok a ms hmb
  have hvlen : (ms.map (aGet a)).length = ms.length := List.length_map _ _
  have hk0 : (0 : Int) ≤ ((ms.length / 2 : Nat) : Int) := by omega
  have hklen : ((ms.length / 2 : Nat) : Int) < ((ms.map (aGet a)).length : Int) := by
    rw [hvlen]; omega
  have hrs := randomized_select_correct (ms.map (aGet a)) _ g hk0 hklen
  have hkn : ((ms.length / 2 : Nat) : Int).toNat < (sortedList (ms.map (aGet a))).length := by
    rw [length_sortedList, hvlen]; omega
  have hmveq : aGet (sortedList (ms.map (aGet a))) ((ms.length / 2 : Nat) : Int) =
      (sortedList (ms.map (aGet a)))[((ms.length / 2 : Nat) : Int).toNat] := by
    rw [aGet, List.getD_eq_getElem _ 0 hkn]
  have hmemv : aGet (sortedList (ms.map (aGet a))) ((ms.length / 2 : Nat) : Int) ∈
      ms.map (aGet a) := by
    rw [hmveq]
    exact ((sortedList_perm (ms.map (aGet a))).mem_iff).1 (List.getElem_mem hkn)
  obtain ⟨m, hmmem, hmval⟩ := List.mem_map.1 hmemv
  obtain ⟨hml, hmr⟩ := hms m hmmem
  have hexists : ∃ j : Int, l ≤ j ∧ j < l + ((r + 1 - l).toNat : Int) ∧
      aGet a j = aGet (sortedList (ms.map (aGet a))) ((ms.length / 2 : Nat) : Int) :=
    ⟨m, hml, by omega, hmval⟩
  obtain ⟨j, hjeq, hj1, hj2, hj3, hj4⟩ :=
    scanLoop_spec (r + 1 - l).toNat a l _ h0 (by omega) hexists
  refine ⟨j, ?_, hj1, by omega, hj3, hj4⟩
  rw [computeMom, if_neg (by omega)]
  simp only [bind, Except.bind, hmapm, hrs, hjeq]

/-- `computeMom` always succeeds with a pivot index inside `[l, r]` when every
collected median index lies in `[l, r]` and at least one was collected. -/
theorem computeMom_spec (a ms : List Int) {l r : Int} (g : Nat → Nat)
    (h0 : 0 ≤ l) (hlr : l ≤ r) (hr : r < a.length)
    (hms : ∀ m ∈ ms, l ≤ m ∧ m ≤ r) (hne : ms ≠ []) :
    ∃ j : Int, computeMom a l r ms g = .ok j ∧ l ≤ j ∧ j ≤ r := by
  rcases eq_or_ne ms.length 1 with hone | hmore
  · rcases ms with _ | ⟨m, ms'⟩
    · exact absurd rfl hne
    · obtain ⟨h1, h2⟩ := hms m (List.mem_cons_self _ _)
      exact ⟨m, by rw [computeMom, if_pos hone]; rfl, h1, h2⟩
  · have hlen2 : 2 ≤ ms.length := by
      have hne0 : ms.length ≠ 0 := fun h => hne (List.length_eq_zero.1 h)
      omega
    obtain ⟨j, hjeq, hj1, hj2, _, _⟩ :=
      computeMom_mom_spec a ms g h0 hlr hr hms hlen2
    exact ⟨j, hjeq, hj1, hj2⟩

/-- Main invariant proof of `select`, the recursive helper of the
deterministic selector, mirroring `quickselect_spec`. -/
theorem select_spec :
    ∀ (fuel : Nat) (a : List Int) (l r k : Int) (G : Nat → Nat → Nat) (t : Nat),
      0 ≤ l → l ≤ k → k ≤ r → r < a.length → (r - l).toNat < fuel →
      lowerFixed a l → upperFixed a r →
      ∃ a', select a l r k G t fuel = .ok (a', aGet (sortedList a) k) ∧
        a'.length = a.length ∧ a'.Perm a := by
  intro fuel
  induction fuel with
  | zero =>
    intro a l r k G t h0 hlk hkr hr hfuel hlo hhi
    omega
  | succ fuel ih =>
    intro a l r k G t h0 hlk hkr hr hfuel hlo hhi
    have hk0 : 0 ≤ k := by omega
    have hkl : k < a.length := by omega
    rcases eq_or_ne l r with rfl | hlr
    · have hkeq : k = l := by omega
      subst hkeq
      have hval : aGet (sortedList a) k = aGet a k := by
        apply aGet_sortedList_eq hk0 hkl
        · intro i h1 h2
          exact hlo i k h1 h2 (le_refl _) hkl
        · intro j h1 h2
          exact hhi k j hk0 (le_refl _) h1 h2
      refine ⟨a, ?_, rfl, List.Perm.refl a⟩
      rw [hval]
      simp only [select, if_pos rfl, pyGet_ok a hk0 hkl, bind, Except.bind, if_true]
    · have hlr' : l < r := by omega
      obtain ⟨a₁, ms, heqg, hlen₁, hperm₁, hframe₁, hmsne, hmsb⟩ :=
        groupLoop_spec (((r + 1 - l).toNat + 4) / 5) a l r h0 (by omega) hr rfl
      have hra₁ : r < a₁.length := by rw [hlen₁]; exact hr
      have hka₁ : k < a₁.length := by rw [hlen₁]; exact hkl
      have hlo₁ : lowerFixed a₁ l :=
        lowerFixed_preserved h0 (le_of_lt hlr') hr hlen₁ hperm₁ hframe₁ hlo
      have hhi₁ : upperFixed a₁ r :=
        upperFixed_preserved h0 (le_of_lt hlr') hr hlen₁ hperm₁ hframe₁ hhi
      have hsort₁ : sortedList a₁ = sortedList a := sortedList_congr hperm₁
      obtain ⟨mom, hmomeq, hmoml, hmomr⟩ :=
        computeMom_spec a₁ ms (G t) h0 (le_of_lt hlr') hra₁ hmsb hmsne
      obtain ⟨a₂, p, heqp, hp1, hp2, hlen₂, hperm₂, hframe₂, hseglt, hsv, hsegge⟩ :=
        partition_spec a₁ l r mom h0 hmoml hmomr hra₁
      have hra₂ : r < a₂.length := by rw [hlen₂]; exact hra₁
      have hka₂ : k < a₂.length := by rw [hlen₂]; exact hka₁
      have hlo₂ : lowerFixed a₂ l :=
        lowerFixed_preserved h0 (le_of_lt hlr') hra₁ hlen₂ hperm₂ hframe₂ hlo₁
      have hhi₂ : upperFixed a₂ r :=
        upperFixed_preserved h0 (le_of_lt hlr') hra₁ hlen₂ hperm₂ hframe₂ hhi₁
      have hsort₂ : sortedList a₂ = sortedList a₁ := sortedList_congr hperm₂
      have hpl₂ : p < a₂.length := by omega
      rcases lt_trichotomy k p with hklt | hkeq | hkgt
      · have hupper : upperFixed a₂ (p - 1) := by
          intro i j hi0 hip hpj hj
          rcases lt_or_le i l with hil | hli
          · exact hlo₂ i j hi0 hil (by omega) hj
          · have hiv : aGet a₂ i < aGet a₁ mom := hseglt i hli (by omega)
            rcases eq_or_ne j p with rfl | hjp
            · omega
            · rcases le_or_lt j r with hjr | hrj
              · have := hsegge j (by omega) hjr
                omega
              · exact hhi₂ i j hi0 (by omega) hrj hj
        obtain ⟨a₃, heq₃, hlen₃, hperm₃⟩ :=
          ih a₂ l (p - 1) k G (t + 1) h0 hlk (by omega) (by omega) (by omega)
            hlo₂ hupper
        refine ⟨a₃, ?_, by omega, (hperm₃.trans hperm₂).trans hperm₁⟩
        rw [← hsort₁, ← hsort₂]
        simp only [select, if_neg hlr, bind, Except.bind, heqg, hmomeq,
          partition_mom, heqp, if_neg (show ¬ k = p by omega), if_pos hklt]
        exact heq₃
      · subst hkeq
        have hval : aGet (sortedList a₂) k = aGet a₂ k := by
          apply aGet_sortedList_eq hk0 hka₂
          · intro i h1 h2
            rcases lt_or_le i l with hil | hli
            · exact hlo₂ i k h1 hil (by omega) hka₂
            · have := hseglt i hli h2
              omega
          · intro j h1 h2
            rcases le_or_lt j r with hjr | hrj
            · have := hsegge j h1 hjr
              omega
            · exact hhi₂ k j hk0 hp2 hrj h2
        refine ⟨a₂, ?_, by omega, hperm₂.trans hperm₁⟩
        rw [← hsort₁, ← hsort₂, hval]
        simp only [select, if_neg hlr, bind, Except.bind, heqg, hmomeq,
          partition_mom, heqp, if_pos rfl, pyGet_ok a₂ hk0 hka₂, if_true]
      · have hlower : lowerFixed a₂ (p + 1) := by
          intro i j hi0 hip hpj hj
          rcases lt_or_le i l with hil | hli
          · exact hlo₂ i j hi0 hil (by omega) hj
          · rcases le_or_lt j r with hjr | hrj
            · have hjv := hsegge j (by omega) hjr
              rcases eq_or_ne i p with rfl | hij
              · omega
              · have := hseglt i hli (by omega)
                omega
            · exact hhi₂ i j hi0 (by omega) hrj hj
        obtain ⟨a₃, heq₃, hlen₃, hperm₃⟩ :=
          ih a₂ (p + 1) r k G (t + 1) (by omega) (by omega) hkr hra₂ (by omega)
            hlower hhi₂
        refine ⟨a₃, ?_, by omega, (hperm₃.trans hperm₂).trans hperm₁⟩
        rw [← hsort₁, ← hsort₂]
        simp only [select, if_neg hlr, bind, Except.bind, heqg, hmomeq,
          partition_mom, heqp, if_neg (show ¬ k = p by omega),
          if_neg (show ¬ k < p by omega)]
        exact heq₃

/-- `deterministic_select` returns the rank-`k` entry of the ascending sort,
for every oracle feeding its inner randomized calls. -/
theorem deterministic_select_correct (arr : List Int) (k : Int) (G : Nat → Nat → Nat)
    (h0 : 0 ≤ k) (hk : k < arr.length) :
    deterministic_select arr k G = .ok (aGet (sortedList arr) k) := by
  obtain ⟨a', heq, _, _⟩ :=
    select_spec (arr.length + 1) arr 0 ((arr.length : Int) - 1) k G 0
      (le_refl _) h0 (by omega) (by omega) (by omega)
      (by intro i j h1 h2 h3 h4; omega)
      (by intro i j h1 h2 h3 h4; omega)
  rw [deterministic_select, heq]
  rfl

/-- Caller's view of a `randomized_select` call: Python's `arr.copy()` at
function entry means every write of the algorithm targets the private copy
(the list value threaded through `quickselect`); the caller's own list is
returned unchanged next to the call's result. -/
def randomized_select_call (arr : List Int) (k : Int) (g : Nat → Nat) :
    List Int × Except PyError Int :=
  (arr, randomized_select arr k g)

/-- Caller's view of a `deterministic_select` call; see
`randomized_select_call`. -/
def deterministic_select_call (arr : List Int) (k : Int) (G : Nat → Nat → Nat) :
    List Int × Except PyError Int :=
  (arr, deterministic_select arr k G)

/-- C1: for every non-empty sequence `A` and every rank `0 ≤ k < length A`,
both `randomized_select` (under every pivot oracle) and `deterministic_select`
return the entry at position `k` of the ascending sort of `A`.  Instantiating
`A` with an all-equal list gives the degenerate-duplicates case: the sort is
the list itself and every valid `k` returns that value. -/
theorem c1_select_matches_sorted (A : List Int) (k : Int) (g : Nat → Nat)
    (G : Nat → Nat → Nat) (h0 : 0 ≤ k) (hk : k < A.length) :
    randomized_select A k g = .ok (aGet (sortedList A) k) ∧
    deterministic_select A k G = .ok (aGet (sortedList A) k) :=
  ⟨randomized_select_correct A k g h0 hk, deterministic_select_correct A k G h0 hk⟩

/-- Witness for C1 on the spec's concrete scenario `A = [5,3,8,1,9,2]`,
`k = 2`, whose expected answer is `3`. -/
theorem c1_select_matches_sorted_witness :
    ((0 : Int) ≤ 2 ∧ (2 : Int) < (([5, 3, 8, 1, 9, 2] : List Int).length : Int) ∧
      aGet (sortedList [5, 3, 8, 1, 9, 2]) 2 = 3) ∧
    (randomized_select [5, 3, 8, 1, 9, 2] 2 (fun _ => 0) =
        .ok (aGet (sortedList [5, 3, 8, 1, 9, 2]) 2) ∧
      deterministic_select [5, 3, 8, 1, 9, 2] 2 (fun _ _ => 0) =
        .ok (aGet (sortedList [5, 3, 8, 1, 9, 2]) 2)) :=
  ⟨⟨by decide, by decide, by decide⟩,
    c1_select_matches_sorted [5, 3, 8, 1, 9, 2] 2 (fun _ => 0) (fun _ _ => 0)
      (by decide) (by decide)⟩

/-- C2 counterexample: `k = length(A)` does not fail with `RankOutOfRange` —
there is no rank check at all.  `deterministic_select([1,2], 2)` returns the
value `2` (this branch of the code uses no randomness, so the oracle is
irrelevant). -/
theorem c2_counterexample_no_rank_check :
    deterministic_select [1, 2] 2 (fun _ _ => 0) = .ok 2 := by decide

/-- C2 amended: neither selector validates `k`.  On `[1, 2]`,
`deterministic_select` returns the maximum `2` for every `k ≥ 2` and every
oracle instead of failing, and `randomized_select` with `k = 2` either
returns `2` or raises the internal `ValueError` of `random.randint`,
depending on the pivot oracle — never a `RankOutOfRange` precondition
failure. -/
theorem c2_amended_no_rank_check (k : Int) (G : Nat → Nat → Nat) (hk : 2 ≤ k) :
    deterministic_select [1, 2] k G = .ok 2 ∧
    randomized_select [1, 2] 2 (fun _ => 0) = .ok 2 ∧
    randomized_select [1, 2] 2 (fun _ => 1) = .error .valueError := by
  refine ⟨?_, by decide, by decide⟩
  have key : select [1, 2] 0 1 k G 0 3 =
      if k = 0 then do { let v ← pyGet [1, 2] k; Except.ok (([1, 2] : List Int), v) }
      else if k < 0 then select [1, 2] 0 (-1) k G 1 2
      else select [1, 2] 1 1 k G 1 2 := rfl
  rw [if_neg (show ¬ (k = 0) by omega), if_neg (show ¬ (k < 0) by omega)] at key
  have base : select [1, 2] 1 1 k G 1 2 = .ok ([1, 2], 2) := rfl
  rw [show deterministic_select [1, 2] k G =
      (select [1, 2] 0 1 k G 0 3).map (·.2) from rfl, key, base]
  rfl

/-- Witness for the amended C2 at `k = 2`. -/
theorem c2_amended_no_rank_check_witness :
    (2 : Int) ≤ 2 ∧
    (deterministic_select [1, 2] 2 (fun _ _ => 0) = .ok 2 ∧
      randomized_select [1, 2] 2 (fun _ => 0) = .ok 2 ∧
      randomized_select [1, 2] 2 (fun _ => 1) = .error .valueError) :=
  ⟨by decide, c2_amended_no_rank_check 2 (fun _ _ => 0) (by decide)⟩

/-- C3 counterexample: an empty sequence does make both selectors fail, but
with the generic `ValueError` raised by `random.randint` inside the recursion
(`quickselect(0, -1, k)` reaches `random.randint(0, -1)`), not with a
dedicated `EmptyInput` check at the top of the selector. -/
theorem c3_counterexample_empty_error_kind :
    randomized_select [] 0 (fun _ => 0) = .error .valueError ∧
    deterministic_select [] 0 (fun _ _ => 0) = .error .valueError ∧
    randomized_select [] 0 (fun _ => 0) ≠ .error .emptyInput ∧
    deterministic_select [] 0 (fun _ _ => 0) ≠ .error .emptyInput :=
  ⟨rfl, rfl, by decide, by decide⟩

/-- C3 amended: for every rank `k` and every oracle, calling either selector
on the empty sequence fails with the `ValueError` of `random.randint` on the
empty range `[0, -1]`, raised from inside the recursion (for the
deterministic selector, from the inner `randomized_select([], 0)` call);
there is no `EmptyInput` precondition check before recursion. -/
theorem c3_amended_empty_raises_valueError (k : Int) (g : Nat → Nat)
    (G : Nat → Nat → Nat) :
    randomized_select [] k g = .error .valueError ∧
    deterministic_select [] k G = .error .valueError :=
  ⟨rfl, rfl⟩

/-- C4: for every range `[l, r]` of the working sequence and every pivot index
inside it, `partition` (and the textually identical `partition_mom`) returns a
`store` index in `[l, r]` with every element of `[l, store)` strictly below
the pivot value, the pivot value at `store`, and every element of
`(store, r]` at least the pivot value.  Indices are read relative to the
partitioned range `[l, r]` (§4.1's contract); positions outside it are
untouched. -/
theorem c4_partition_post (a : List Int) (l r p : Int)
    (h0 : 0 ≤ l) (hlp : l ≤ p) (hpr : p ≤ r) (hr : r < a.length) :
    ∃ a' s, partition a l r p = .ok (a', s) ∧
      partition_mom a l r p = .ok (a', s) ∧
      l ≤ s ∧ s ≤ r ∧
      (∀ x : Int, l ≤ x → x < s → aGet a' x < aGet a p) ∧
      aGet a' s = aGet a p ∧
      (∀ x : Int, s < x → x ≤ r → aGet a p ≤ aGet a' x) := by
  obtain ⟨a', s, heq, hs1, hs2, _, _, _, hlt, hsv, hge⟩ :=
    partition_spec a l r p h0 hlp hpr hr
  exact ⟨a', s, heq, by rw [partition_mom]; exact heq, hs1, hs2, hlt, hsv, hge⟩

/-- Witness for C4 on `[3, 1, 2]` partitioned over the full range around the
pivot index `1` (pivot value `1`). -/
theorem c4_partition_post_witness :
    ((0 : Int) ≤ 0 ∧ (0 : Int) ≤ 1 ∧ (1 : Int) ≤ 2 ∧
      (2 : Int) < (([3, 1, 2] : List Int).length : Int)) ∧
    (∃ a' s, partition [3, 1, 2] 0 2 1 = .ok (a', s) ∧
      partition_mom [3, 1, 2] 0 2 1 = .ok (a', s) ∧
      0 ≤ s ∧ s ≤ 2 ∧
      (∀ x : Int, 0 ≤ x → x < s → aGet a' x < aGet [3, 1, 2] 1) ∧
      aGet a' s = aGet [3, 1, 2] 1 ∧
      (∀ x : Int, s < x → x ≤ 2 → aGet [3, 1, 2] 1 ≤ aGet a' x)) :=
  ⟨⟨by decide, by decide, by decide, by decide⟩,
    c4_partition_post [3, 1, 2] 0 2 1 (by decide) (by decide) (by decide) (by decide)⟩

/-- C5: the caller-visible sequence is unchanged by any selection call,
successful or failing — only the private working copy mutates.  The first two
conjuncts state that the caller's list survives both calls unchanged; the last
two exhibit a run (`[2, 1]`, `k = 0`) whose private working copy really is
mutated (it ends as `[1, 2]`) while the caller still sees `[2, 1]`. -/
theorem c5_caller_sequence_unchanged :
    (∀ (arr : List Int) (k : Int) (g : Nat → Nat),
      (randomized_select_call arr k g).1 = arr) ∧
    (∀ (arr : List Int) (k : Int) (G : Nat → Nat → Nat),
      (deterministic_select_call arr k G).1 = arr) ∧
    (quickselect [2, 1] 0 1 0 (fun _ => 0) 0 3).map (·.1) = .ok [1, 2] ∧
    (randomized_select_call [2, 1] 0 (fun _ => 0)).1 = [2, 1] :=
  ⟨fun _ _ _ => rfl, fun _ _ _ => rfl, rfl, rfl⟩

/-- C6: whenever more than one group-median index was collected, the pivot
value is the rank-`|M| / 2` (integer division) entry of the sorted list of
values at the indices of `M`, it is obtained through the randomized selector,
and the pivot index is the first index of `[l, r]` whose value equals it. -/
theorem c6_median_of_medians_step (a ms : List Int) (l r : Int) (g : Nat → Nat)
    (h0 : 0 ≤ l) (hlr : l ≤ r) (hr : r < a.length)
    (hms : ∀ m ∈ ms, l ≤ m ∧ m ≤ r) (hlen2 : 2 ≤ ms.length) :
    ∃ j : Int,
      computeMom a l r ms g = .ok j ∧ l ≤ j ∧ j ≤ r ∧
      randomized_select (ms.map (aGet a)) ((ms.length / 2 : Nat) : Int) g =
        .ok (aGet (sortedList (ms.map (aGet a))) ((ms.length / 2 : Nat) : Int)) ∧
      aGet a j = aGet (sortedList (ms.map (aGet a))) ((ms.length / 2 : Nat) : Int) ∧
      (∀ x : Int, l ≤ x → x < j →
        aGet a x ≠ aGet (sortedList (ms.map (aGet a))) ((ms.length / 2 : Nat) : Int)) := by
  obtain ⟨j, hjeq, hj1, hj2, hj3, hj4⟩ :=
    computeMom_mom_spec a ms g h0 hlr hr hms hlen2
  have hvlen : ((ms.length / 2 : Nat) : Int) < ((ms.map (aGet a)).length : Int) := by
    rw [List.length_map]; omega
  exact ⟨j, hjeq, hj1, hj2,
    randomized_select_correct (ms.map (aGet a)) _ g (by omega) hvlen, hj3, hj4⟩

/-- Witness for C6: `a = [1, 2, 3, 4]`, collected median indices `[0, 2]`
(values `1` and `3`); the rank-`1` entry of their sort is `3`, first found at
index `2`. -/
theorem c6_median_of_medians_step_witness :
    ((0 : Int) ≤ 0 ∧ (0 : Int) ≤ 3 ∧ (3 : Int) < (([1, 2, 3, 4] : List Int).length : Int) ∧
      (∀ m ∈ ([0, 2] : List Int), (0 : Int) ≤ m ∧ m ≤ 3) ∧
      2 ≤ ([0, 2] : List Int).length) ∧
    (∃ j : Int,
      computeMom [1, 2, 3, 4] 0 3 [0, 2] (fun _ => 0) = .ok j ∧ 0 ≤ j ∧ j ≤ 3 ∧
      randomized_select (([0, 2] : List Int).map (aGet [1, 2, 3, 4]))
          ((([0, 2] : List Int).length / 2 : Nat) : Int) (fun _ => 0) =
        .ok (aGet (sortedList (([0, 2] : List Int).map (aGet [1, 2, 3, 4])))
          ((([0, 2] : List Int).length / 2 : Nat) : Int)) ∧
      aGet [1, 2, 3, 4] j = aGet (sortedList (([0, 2] : List Int).map (aGet [1, 2, 3, 4])))
        ((([0, 2] : List Int).length / 2 : Nat) : Int) ∧
      (∀ x : Int, 0 ≤ x → x < j →
        aGet [1, 2, 3, 4] x ≠ aGet (sortedList (([0, 2] : List Int).map (aGet [1, 2, 3, 4])))
          ((([0, 2] : List Int).length / 2 : Nat) : Int))) :=
  ⟨⟨by decide, by decide, by decide, by decide, by decide⟩,
    c6_median_of_medians_step [1, 2, 3, 4] [0, 2] 0 3 (fun _ => 0)
      (by decide) (by decide) (by decide) (by decide) (by decide)⟩

/-- C7: on a sub-range of at most five elements, `find_median` replaces the
positions `[l, r]` by the ascending sort of their previous contents (positions
outside survive in the `take`/`drop` parts), and returns the lower-median
index `l + (r - l) // 2`, which lies in `[l, r]`. -/
theorem c7_find_median_sorts_in_place (a : List Int) (l r : Int)
    (h0 : 0 ≤ l) (hlr : l ≤ r) (hr : r < a.length) (hgrp : r - l ≤ 4) :
    find_median a l r =
      .ok (a.take l.toNat ++ sortedList (window a l r) ++ a.drop (r.toNat + 1),
        l + Int.fdiv (r - l) 2) ∧
    l ≤ l + Int.fdiv (r - l) 2 ∧ l + Int.fdiv (r - l) 2 ≤ r ∧
    List.Sorted (· ≤ ·) (sortedList (window a l r)) ∧
    (sortedList (window a l r)).Perm (window a l r) ∧
    window (a.take l.toNat ++ sortedList (window a l r) ++ a.drop (r.toNat + 1)) l r =
      sortedList (window a l r) := by
  have hslen : (sortedList (window a l r)).length = (r + 1 - l).toNat := by
    rw [length_sortedList, length_window a h0 hlr hr]
  obtain ⟨_, _, hbwin, _⟩ :=
    replaceWindow_facts a (sortedList (window a l r)) h0 hlr hr hslen
  obtain ⟨hf1, hf2⟩ := fdiv2_bounds (d := r - l) (by omega) hgrp
  exact ⟨find_median_eq a h0 hlr hr, by omega, by omega,
    sortedList_sorted _, sortedList_perm _, hbwin⟩

/-- Witness for C7 on the five-element range of `[9, 5, 7, 6, 8]`. -/
theorem c7_find_median_sorts_in_place_witness :
    ((0 : Int) ≤ 0 ∧ (0 : Int) ≤ 4 ∧ (4 : Int) < (([9, 5, 7, 6, 8] : List Int).length : Int) ∧
      (4 : Int) - 0 ≤ 4) ∧
    (find_median [9, 5, 7, 6, 8] 0 4 =
      .ok (([9, 5, 7, 6, 8] : List Int).take (0 : Int).toNat ++
          sortedList (window [9, 5, 7, 6, 8] 0 4) ++
          ([9, 5, 7, 6, 8] : List Int).drop ((4 : Int).toNat + 1),
        0 + Int.fdiv (4 - 0) 2) ∧
    (0 : Int) ≤ 0 + Int.fdiv (4 - 0) 2 ∧ 0 + Int.fdiv (4 - 0) 2 ≤ 4 ∧
    List.Sorted (· ≤ ·) (sortedList (window [9, 5, 7, 6, 8] 0 4)) ∧
    (sortedList (window [9, 5, 7, 6, 8] 0 4)).Perm (window [9, 5, 7, 6, 8] 0 4) ∧
    window (([9, 5, 7, 6, 8] : List Int).take (0 : Int).toNat ++
        sortedList (window [9, 5, 7, 6, 8] 0 4) ++
        ([9, 5, 7, 6, 8] : List Int).drop ((4 : Int).toNat + 1)) 0 4 =
      sortedList (window [9, 5, 7, 6, 8] 0 4)) :=
  ⟨⟨by decide, by decide, by decide, by decide⟩,
    c7_find_median_sorts_in_place [9, 5, 7, 6, 8] 0 4
      (by decide) (by decide) (by decide) (by decide)⟩

/-- C8: for a fixed non-empty sequence and valid rank, the value returned by
`randomized_select` is the same under any two pivot oracles, and coincides
with the value returned by `deterministic_select` under any oracle. -/
theorem c8_output_independent_of_randomness (A : List Int) (k : Int)
    (g₁ g₂ : Nat → Nat) (G : Nat → Nat → Nat) (h0 : 0 ≤ k) (hk : k < A.length) :
    randomized_select A k g₁ = randomized_select A k g₂ ∧
    randomized_select A k g₁ = deterministic_select A k G := by
  rw [randomized_select_correct A k g₁ h0 hk, randomized_select_correct A k g₂ h0 hk,
    deterministic_select_correct A k G h0 hk]
  exact ⟨rfl, rfl⟩

/-- Witness for C8 on the duplicate-heavy spec scenario `[4, 4, 4, 1, 4]`,
`k = 0`, with two different pivot oracles. -/
theorem c8_output_independent_of_randomness_witness :
    ((0 : Int) ≤ 0 ∧ (0 : Int) < (([4, 4, 4, 1, 4] : List Int).length : Int)) ∧
    (randomized_select [4, 4, 4, 1, 4] 0 (fun n => n) =
        randomized_select [4, 4, 4, 1, 4] 0 (fun n => n * n + 7) ∧
      randomized_select [4, 4, 4, 1, 4] 0 (fun n => n) =
        deterministic_select [4, 4, 4, 1, 4] 0 (fun a b => a + b)) :=
  ⟨⟨by decide, by decide⟩,
    c8_output_independent_of_randomness [4, 4, 4, 1, 4] 0 (fun n => n)
      (fun n => n * n + 7) (fun a b => a + b) (by decide) (by decide)⟩

/-- C9: each internal mutation step — the Lomuto partition and the
group-median sort-and-write-back — permutes the working sequence and changes
only positions inside its `[l, r]` argument; consequently the working copy of
a whole top-level call (either selector, valid rank) ends as a permutation of
the original input. -/
theorem c9_mutations_are_window_permutations :
    (∀ (a : List Int) (l r p : Int), 0 ≤ l → l ≤ p → p ≤ r → r < a.length →
      ∃ a' s, partition a l r p = .ok (a', s) ∧ a'.Perm a ∧
        (∀ x : Int, 0 ≤ x → x < a.length → (x < l ∨ r < x) → aGet a' x = aGet a x)) ∧
    (∀ (a : List Int) (l r : Int), 0 ≤ l → l ≤ r → r < a.length →
      ∃ a' m, find_median a l r = .ok (a', m) ∧ a'.Perm a ∧
        (∀ x : Int, 0 ≤ x → x < a.length → (x < l ∨ r < x) → aGet a' x = aGet a x)) ∧
    (∀ (arr : List Int) (k : Int) (g : Nat → Nat), 0 ≤ k → k < arr.length →
      ∃ a' v, quickselect arr 0 ((arr.length : Int) - 1) k g 0 (arr.length + 1) =
        .ok (a', v) ∧ a'.Perm arr) ∧
    (∀ (arr : List Int) (k : Int) (G : Nat → Nat → Nat), 0 ≤ k → k < arr.length →
      ∃ a' v, select arr 0 ((arr.length : Int) - 1) k G 0 (arr.length + 1) =
        .ok (a', v) ∧ a'.Perm arr) := by
  refine ⟨?_, ?_, ?_, ?_⟩
  · intro a l r p h0 hlp hpr hr
    obtain ⟨a', s, heq, _, _, _, hperm, hframe, _, _, _⟩ :=
      partition_spec a l r p h0 hlp hpr hr
    exact ⟨a', s, heq, hperm, hframe⟩
  · intro a l r h0 hlr hr
    have hslen : (sortedList (window a l r)).length = (r + 1 - l).toNat := by
      rw [length_sortedList, length_window a h0 hlr hr]
    obtain ⟨_, hbframe, _, hbperm⟩ :=
      replaceWindow_facts a (sortedList (window a l r)) h0 hlr hr hslen
    exact ⟨_, _, find_median_eq a h0 hlr hr, hbperm (sortedList_perm _), hbframe⟩
  · intro arr k g h0 hk
    obtain ⟨a', heq, _, hperm⟩ :=
      quickselect_spec (arr.length + 1) arr 0 ((arr.length : Int) - 1) k g 0
        (le_refl _) h0 (by omega) (by omega) (by omega)
        (by intro i j h1 h2 h3 h4; omega)
        (by intro i j h1 h2 h3 h4; omega)
    exact ⟨a', _, heq, hperm⟩
  · intro arr k G h0 hk
    obtain ⟨a', heq, _, hperm⟩ :=
      select_spec (arr.length + 1) arr 0 ((arr.length : Int) - 1) k G 0
        (le_refl _) h0 (by omega) (by omega) (by omega)
        (by intro i j h1 h2 h3 h4; omega)
        (by intro i j h1 h2 h3 h4; omega)
    exact ⟨a', _, heq, hperm⟩

/-- Witness for C9, instantiating all four parts on small concrete runs. -/
theorem c9_mutations_are_window_permutations_witness :
    (∃ a' s, partition [2, 1] 0 1 0 = .ok (a', s) ∧ a'.Perm [2, 1] ∧
      (∀ x : Int, 0 ≤ x → x < (([2, 1] : List Int).length : Int) → (x < 0 ∨ 1 < x) →
        aGet a' x = aGet [2, 1] x)) ∧
    (∃ a' m, find_median [2, 1] 0 1 = .ok (a', m) ∧ a'.Perm [2, 1] ∧
      (∀ x : Int, 0 ≤ x → x < (([2, 1] : List Int).length : Int) → (x < 0 ∨ 1 < x) →
        aGet a' x = aGet [2, 1] x)) ∧
    (∃ a' v, quickselect [2, 1] 0 ((([2, 1] : List Int).length : Int) - 1) 0
        (fun _ => 0) 0 (([2, 1] : List Int).length + 1) = .ok (a', v) ∧
      a'.Perm [2, 1]) ∧
    (∃ a' v, select [2, 1] 0 ((([2, 1] : List Int).length : Int) - 1) 0
        (fun _ _ => 0) 0 (([2, 1] : List Int).length + 1) = .ok (a', v) ∧
      a'.Perm [2, 1]) :=
  ⟨c9_mutations_are_window_permutations.1 [2, 1] 0 1 0
      (by decide) (by decide) (by decide) (by decide),
    c9_mutations_are_window_permutations.2.1 [2, 1] 0 1
      (by decide) (by decide) (by decide),
    c9_mutations_are_window_permutations.2.2.1 [2, 1] 0 (fun _ => 0)
      (by decide) (by decide),
    c9_mutations_are_window_permutations.2.2.2 [2, 1] 0 (fun _ _ => 0)
      (by decide) (by decide)⟩

/-- C10: on a single-element sequence, both selectors return the sole element
for every integer rank `k` — including out-of-range ones — and never raise,
because the `left == right` base case returns the element before `k` is ever
consulted. -/
theorem c10_singleton_ignores_rank (x k : Int) (g : Nat → Nat)
    (G : Nat → Nat → Nat) :
    randomized_select [x] k g = .ok x ∧ deterministic_select [x] k G = .ok x :=
  ⟨rfl, rfl⟩

end SelectionAlgorithm
